import Mathlib

/-!
Verification development for the TF-Ranking LibSVM example pipeline.

The notebook under `src/` wires together four algorithmic components
(list assembly, groupwise scoring, pairwise logistic loss, NDCG@k
metrics).  The notebook itself only configures and calls these
components (`_LOSS = "pairwise_logistic_loss"`, `eval_metric_fns`,
`make_groupwise_ranking_fn`, `libsvm_generator`), whose implementations
live in the `tensorflow_ranking` library and are not part of the source
tree here; they are therefore modelled from the specification (spec.md,
sections 4.1-4.4), as marked on each definition.  Scores and labels are
modelled as rationals (the discrete content: masking, sorting, pair
selection, counting) embedded into the reals where the transcendental
functions (log, exp, 2^x, log2) appear.
-/

namespace TFR

/-- One slot of a fixed-size List: an aligned (score, label) pair.
Labels `< 0` mark padding (sentinel `-1`); labels `≥ 0` are genuine
relevance grades. -/
structure Slot where
  score : ℚ
  label : ℚ
deriving DecidableEq

/-- Modelled from the spec (§4.3) and the docstring of
`eval_metric_fns` in the notebook (`tf.greater_equal(labels, 0.)`):
a slot participates in loss/metric computation iff its label is
non-negative. -/
def isValidLabel (l : ℚ) : Bool := decide (0 ≤ l)

/-- Modelled from the spec (§4.3, `_LOSS = "pairwise_logistic_loss"`):
the logistic penalty accumulated for an ordered pair whose first slot
has the larger label; it penalizes `si ≤ sj`. -/
noncomputable def pairLogisticLoss (si sj : ℚ) : ℝ :=
  Real.log (1 + Real.exp ((sj : ℝ) - (si : ℝ)))

/-- Modelled from the spec (§4.3): an ordered pair of slots enters the
pairwise loss iff both slots are valid and the first label is strictly
larger (equal labels contribute nothing, padding is never compared). -/
def validPairB (a b : Slot) : Bool :=
  isValidLabel a.label && isValidLabel b.label && decide (b.label < a.label)

/-- Modelled from the spec (§4.3): the multiset of ordered label-strict
pairs of a List, one per unordered pair with distinct labels. -/
def listPairs (L : List Slot) : List (Slot × Slot) :=
  (L ×ˢ L).filter (fun p => validPairB p.1 p.2)

/-- Modelled from the spec (§4.3): per-List pairwise logistic loss,
the sum over valid pairs divided by the number of valid pairs, and `0`
for a List with no valid pair. -/
noncomputable def listLoss (L : List Slot) : ℝ :=
  if (listPairs L).length = 0 then 0
  else ((listPairs L).map (fun p => pairLogisticLoss p.1.score p.2.score)).sum
        / ((listPairs L).length : ℝ)

/-- Modelled from the spec (§4.3): the batch loss is the mean of the
per-List losses. -/
noncomputable def batchLoss (B : List (List Slot)) : ℝ :=
  if B.length = 0 then 0 else (B.map listLoss).sum / (B.length : ℝ)

/-- Positional read of a List, with an (unreachable at in-range
indices) padding default. -/
def slotD (L : List Slot) (i : ℕ) : Slot := L.getD i ⟨0, -1⟩

/-- Modelled from the spec (§4.3), reference formulation: the ordered
index pair `(i, j)` is a valid pair of `L`. -/
def IsValidPairIdx (L : List Slot) (p : ℕ × ℕ) : Prop :=
  0 ≤ (slotD L p.1).label ∧ 0 ≤ (slotD L p.2).label ∧
    (slotD L p.2).label < (slotD L p.1).label

instance (L : List Slot) : DecidablePred (IsValidPairIdx L) := fun p => by
  unfold IsValidPairIdx
  exact inferInstance

/-- Reference formulation: the set of valid ordered index pairs. -/
def refPairSet (L : List Slot) : Finset (ℕ × ℕ) :=
  (Finset.range L.length ×ˢ Finset.range L.length).filter (IsValidPairIdx L)

/-- Modelled from the spec (§4.3), reference formulation of the
per-List pairwise loss: a sum over index pairs divided by the number of
valid pairs. -/
noncomputable def refListLoss (L : List Slot) : ℝ :=
  if (refPairSet L).card = 0 then 0
  else (∑ p ∈ refPairSet L, pairLogisticLoss (slotD L p.1).score (slotD L p.2).score)
        / ((refPairSet L).card : ℝ)

/-- Reference formulation of the batch loss: mean over Lists. -/
noncomputable def refBatchLoss (B : List (List Slot)) : ℝ :=
  if B.length = 0 then 0 else (B.map refListLoss).sum / (B.length : ℝ)

lemma validPairB_iff (a b : Slot) :
    validPairB a b = true ↔ 0 ≤ a.label ∧ 0 ≤ b.label ∧ b.label < a.label := by
  simp [validPairB, isValidLabel, and_assoc]

lemma sum_map_eq_sum_range {α M : Type} [AddCommMonoid M] (g : α → M) (d : α) :
    ∀ l : List α, (l.map g).sum = ∑ i ∈ Finset.range l.length, g (l.getD i d)
  | [] => by simp
  | a :: t => by
      rw [List.map_cons, List.sum_cons, sum_map_eq_sum_range g d t, List.length_cons,
        Finset.sum_range_succ']
      simp only [List.getD_cons_succ, List.getD_cons_zero]
      exact add_comm _ _

lemma sum_map_filter {α M : Type} [AddCommMonoid M] (q : α → Bool) (f : α → M) :
    ∀ l : List α, ((l.filter q).map f).sum = (l.map (fun a => if q a then f a else 0)).sum
  | [] => by simp
  | a :: t => by
      by_cases h : q a
      · simp [List.filter_cons, h, sum_map_filter q f t]
      · simp [List.filter_cons, h, sum_map_filter q f t]

lemma sum_map_product {α β M : Type} [AddCommMonoid M] (f : α × β → M) (l₂ : List β) :
    ∀ l₁ : List α,
      ((l₁ ×ˢ l₂).map f).sum = (l₁.map (fun a => (l₂.map (fun b => f (a, b))).sum)).sum
  | [] => by simp
  | a :: t => by
      rw [List.product_cons, List.map_append, List.sum_append, List.map_map,
        sum_map_product f l₂ t]
      simp [Function.comp_def]

lemma sum_map_const_one {α : Type} : ∀ l : List α, (l.map (fun _ => (1 : ℕ))).sum = l.length
  | [] => rfl
  | a :: t => by simp [sum_map_const_one t, Nat.add_comm]

lemma sum_listPairs_eq {M : Type} [AddCommMonoid M] (L : List Slot) (f : Slot × Slot → M) :
    ((listPairs L).map f).sum
      = ∑ p ∈ refPairSet L, f (slotD L p.1, slotD L p.2) := by
  unfold listPairs refPairSet
  rw [sum_map_filter, sum_map_product, sum_map_eq_sum_range _ (Slot.mk 0 (-1)),
    Finset.sum_filter, Finset.sum_product]
  refine Finset.sum_congr rfl (fun i _ => ?_)
  rw [sum_map_eq_sum_range _ (Slot.mk 0 (-1))]
  refine Finset.sum_congr rfl (fun j _ => ?_)
  dsimp only [slotD]
  have hiff : (validPairB (L.getD i ⟨0, -1⟩) (L.getD j ⟨0, -1⟩) = true)
      ↔ IsValidPairIdx L (i, j) := by
    rw [validPairB_iff]
    unfold IsValidPairIdx slotD
    rfl
  by_cases h : IsValidPairIdx L (i, j)
  · rw [if_pos (hiff.mpr h), if_pos h]
  · rw [if_neg (fun hb => h (hiff.mp hb)), if_neg h]

lemma length_listPairs_eq (L : List Slot) : (listPairs L).length = (refPairSet L).card := by
  have h := sum_listPairs_eq (M := ℕ) L (fun _ => 1)
  rw [sum_map_const_one] at h
  rw [h, Finset.card_eq_sum_ones]

/-- The logistic pair term strictly decreases when the first score
strictly increases. -/
theorem pairLogisticLoss_strict_anti {si si' : ℚ} (sj : ℚ) (h : si < si') :
    pairLogisticLoss si' sj < pairLogisticLoss si sj := by
  unfold pairLogisticLoss
  have hcast : (si : ℝ) < (si' : ℝ) := by exact_mod_cast h
  have hexp : Real.exp ((sj : ℝ) - si') < Real.exp ((sj : ℝ) - si) :=
    Real.exp_lt_exp.mpr (by linarith)
  have hpos : (0 : ℝ) < 1 + Real.exp ((sj : ℝ) - si') := by
    have := Real.exp_pos ((sj : ℝ) - si')
    linarith
  exact Real.log_lt_log hpos (by linarith)

/-- Modelled from the spec (§4.4): slots surviving the validity mask,
paired with their original slot indices. -/
def validEnum (L : List Slot) : List (ℕ × Slot) :=
  L.enum.filter (fun p => isValidLabel p.2.label)

/-- Modelled from the spec (§4.4): the ranking order — strictly larger
score first, ties broken stably by smaller original slot index. -/
def slotRank (a b : ℕ × Slot) : Prop :=
  b.2.score < a.2.score ∨ (a.2.score = b.2.score ∧ a.1 ≤ b.1)

instance : DecidableRel slotRank := fun a b => by
  unfold slotRank
  exact inferInstance

instance : IsTotal (ℕ × Slot) slotRank := ⟨by
  intro a b
  unfold slotRank
  rcases lt_trichotomy a.2.score b.2.score with h | h | h
  · exact Or.inr (Or.inl h)
  · rcases Nat.le_total a.1 b.1 with hn | hn
    · exact Or.inl (Or.inr ⟨h, hn⟩)
    · exact Or.inr (Or.inr ⟨h.symm, hn⟩)
  · exact Or.inl (Or.inl h)⟩

instance : IsTrans (ℕ × Slot) slotRank := ⟨by
  intro a b c hab hbc
  unfold slotRank at hab hbc ⊢
  rcases hab with h1 | ⟨h1, h1i⟩
  · rcases hbc with h2 | ⟨h2, _⟩
    · exact Or.inl (lt_trans h2 h1)
    · exact Or.inl (h2 ▸ h1)
  · rcases hbc with h2 | ⟨h2, h2i⟩
    · exact Or.inl (h1 ▸ h2)
    · exact Or.inr ⟨h1.trans h2, le_trans h1i h2i⟩⟩

/-- Modelled from the spec (§4.4): the valid slots ranked by descending
score, ties broken stably by original slot index. -/
def rankValid (L : List Slot) : List (ℕ × Slot) :=
  List.insertionSort slotRank (validEnum L)

/-- Labels in achieved rank order. -/
def rankedLabels (L : List Slot) : List ℚ := (rankValid L).map (fun p => p.2.label)

/-- Labels of the valid slots in original slot order. -/
def validLabels (L : List Slot) : List ℚ := (validEnum L).map (fun p => p.2.label)

/-- Descending order on labels, used for the ideal ranking. -/
def qGe (a b : ℚ) : Prop := b ≤ a

instance : DecidableRel qGe := fun a b => by
  unfold qGe
  exact inferInstance

instance : IsTotal ℚ qGe := ⟨fun a b => le_total b a⟩

instance : IsTrans ℚ qGe := ⟨fun _ _ _ hab hbc => le_trans hbc hab⟩

/-- Modelled from the spec (§4.4): valid labels sorted descending —
the best achievable ordering. -/
def idealLabels (L : List Slot) : List ℚ := List.insertionSort qGe (validLabels L)

/-- Modelled from the spec (§4.4): exponential gain `2^label − 1`. -/
noncomputable def gain (l : ℚ) : ℝ := (2 : ℝ) ^ (l : ℝ) - 1

/-- Modelled from the spec (§4.4): rank discount `1 / log2(rank + 1)`. -/
noncomputable def discount (rank : ℕ) : ℝ := 1 / Real.logb 2 ((rank : ℝ) + 1)

/-- Modelled from the spec (§4.4): DCG over the first `k` entries of a
ranked label list — position `r` (0-based) carries rank `r + 1`. -/
noncomputable def dcgList (ls : List ℚ) (k : ℕ) : ℝ :=
  (((ls.take k).enum).map (fun p => gain p.2 * discount (p.1 + 1))).sum

/-- Modelled from the spec (§4.4): decidable trigger for a defined
NDCG — a positive cutoff and some positively-labeled valid document. -/
def ndcgDefined (L : List Slot) (k : ℕ) : Bool :=
  decide (0 < k) && (validLabels L).any (fun l => decide (0 < l))

/-- Modelled from the spec (§4.4): NDCG@k, `none` (excluded) when
IDCG@k is zero. -/
noncomputable def ndcg_at_k (L : List Slot) (k : ℕ) : Option ℝ :=
  if ndcgDefined L k then
    some (dcgList (rankedLabels L) k / dcgList (idealLabels L) k)
  else none

/-- Modelled from the spec (§4.4): batch NDCG@k — indicator-weighted
mean over the Lists whose NDCG is defined. -/
noncomputable def batchNdcg (B : List (List Slot)) (k : ℕ) : ℝ :=
  if B.countP (fun L => ndcgDefined L k) = 0 then 0
  else (B.map (fun L => (ndcg_at_k L k).getD 0)).sum
        / (B.countP (fun L => ndcgDefined L k) : ℝ)

/-- Reference formulation (spec §4.4 verbatim): DCG@k as a sum over
ranks `1..min(k, length)`. -/
noncomputable def dcgRef (ls : List ℚ) (k : ℕ) : ℝ :=
  ∑ r ∈ Finset.range (min k ls.length), gain (ls.getD r 0) * discount (r + 1)

open Classical in
/-- Reference formulation: NDCG@k is `DCG@k / IDCG@k` exactly when
`IDCG@k > 0`, and undefined otherwise. -/
noncomputable def ndcgRef (L : List Slot) (k : ℕ) : Option ℝ :=
  if 0 < dcgRef (idealLabels L) k then
    some (dcgRef (rankedLabels L) k / dcgRef (idealLabels L) k)
  else none

/-- Reference formulation: batch NDCG@k as the plain mean of the
defined per-List values. -/
noncomputable def batchNdcgRef (B : List (List Slot)) (k : ℕ) : ℝ :=
  if (B.filterMap (fun L => ndcgRef L k)).length = 0 then 0
  else (B.filterMap (fun L => ndcgRef L k)).sum
        / ((B.filterMap (fun L => ndcgRef L k)).length : ℝ)

lemma sum_enumFrom_map {M : Type} [AddCommMonoid M] (g : ℕ → ℚ → M) :
    ∀ (ls : List ℚ) (n : ℕ),
      ((ls.enumFrom n).map (fun p => g p.1 p.2)).sum
        = ∑ r ∈ Finset.range ls.length, g (n + r) (ls.getD r 0)
  | [], n => by simp
  | a :: t, n => by
      rw [List.enumFrom_cons, List.map_cons, List.sum_cons, sum_enumFrom_map g t (n + 1),
        List.length_cons, Finset.sum_range_succ']
      simp only [List.getD_cons_succ, List.getD_cons_zero, Nat.add_zero]
      rw [add_comm]
      congr 1
      refine Finset.sum_congr rfl (fun r _ => ?_)
      congr 1
      omega

lemma dcgList_eq_dcgRef (ls : List ℚ) (k : ℕ) : dcgList ls k = dcgRef ls k := by
  unfold dcgList dcgRef
  rw [List.enum, sum_enumFrom_map (fun r l => gain l * discount (r + 1)) (ls.take k) 0]
  rw [List.length_take]
  refine Finset.sum_congr rfl (fun r hr => ?_)
  have hrk : r < k := lt_of_lt_of_le (Finset.mem_range.mp hr) (min_le_left _ _)
  have : (ls.take k).getD r 0 = ls.getD r 0 := by
    unfold List.getD
    rw [List.get?_take hrk]
  rw [this, Nat.zero_add]

lemma validLabels_nonneg (L : List Slot) : ∀ l ∈ validLabels L, 0 ≤ l := by
  intro l hl
  unfold validLabels validEnum at hl
  rcases List.mem_map.mp hl with ⟨p, hp, rfl⟩
  have h2 := (List.mem_filter.mp hp).2
  simpa [isValidLabel] using h2

lemma snd_mem_of_mem_enumFrom {α : Type} {p : ℕ × α} :
    ∀ (l : List α) (n : ℕ), p ∈ l.enumFrom n → p.2 ∈ l
  | [], _, h => by simp at h
  | a :: t, n, h => by
      rw [List.enumFrom_cons] at h
      rcases List.mem_cons.mp h with h | h
      · rw [h]
        exact List.mem_cons_self a t
      · exact List.mem_cons_of_mem a (snd_mem_of_mem_enumFrom t (n + 1) h)

lemma gain_zero : gain 0 = 0 := by
  simp [gain]

lemma gain_nonneg {l : ℚ} (h : 0 ≤ l) : 0 ≤ gain l := by
  unfold gain
  have h2 : (2 : ℝ) ^ (0 : ℝ) ≤ (2 : ℝ) ^ (l : ℝ) :=
    Real.rpow_le_rpow_of_exponent_le (by norm_num) (by exact_mod_cast h)
  rw [Real.rpow_zero] at h2
  linarith

lemma gain_pos {l : ℚ} (h : 0 < l) : 0 < gain l := by
  unfold gain
  have h2 : (2 : ℝ) ^ (0 : ℝ) < (2 : ℝ) ^ (l : ℝ) :=
    Real.rpow_lt_rpow_of_exponent_lt (by norm_num) (by exact_mod_cast h)
  rw [Real.rpow_zero] at h2
  linarith

lemma discount_pos (r : ℕ) : 0 < discount (r + 1) := by
  unfold discount
  have hc : (0 : ℝ) ≤ (r : ℝ) := Nat.cast_nonneg r
  have h1 : (1 : ℝ) < ((r : ℝ) + 1) + 1 := by linarith
  have h2 : 0 < Real.logb 2 (((r : ℝ) + 1) + 1) := Real.logb_pos (by norm_num) h1
  have h3 : ((r + 1 : ℕ) : ℝ) + 1 = ((r : ℝ) + 1) + 1 := by push_cast; ring
  rw [h3]
  positivity

lemma dcg_enumFrom_sum_nonneg {ls : List ℚ} (h : ∀ l ∈ ls, 0 ≤ l) (n : ℕ) :
    0 ≤ ((ls.enumFrom n).map (fun p => gain p.2 * discount (p.1 + 1))).sum := by
  apply List.sum_nonneg
  intro x hx
  rcases List.mem_map.mp hx with ⟨p, hp, rfl⟩
  have hmem := snd_mem_of_mem_enumFrom ls n hp
  exact mul_nonneg (gain_nonneg (h _ hmem)) (le_of_lt (discount_pos _))

lemma dcgList_ideal_pos_iff (L : List Slot) (k : ℕ) :
    0 < dcgList (idealLabels L) k ↔ ndcgDefined L k = true := by
  have hperm : List.Perm (idealLabels L) (validLabels L) := List.perm_insertionSort qGe _
  have hnon : ∀ l ∈ idealLabels L, 0 ≤ l :=
    fun l hl => validLabels_nonneg L l (hperm.mem_iff.mp hl)
  have hdef : ndcgDefined L k = true ↔ 0 < k ∧ ∃ l ∈ validLabels L, 0 < l := by
    simp [ndcgDefined, List.any_eq_true]
  rw [hdef]
  constructor
  · intro hpos
    constructor
    · by_contra hk
      have hk0 : k = 0 := by omega
      subst hk0
      simp [dcgList] at hpos
    · by_contra hex
      push_neg at hex
      have hzero : dcgList (idealLabels L) k = 0 := by
        unfold dcgList
        rw [List.enum]
        apply List.sum_eq_zero
        intro x hx
        rcases List.mem_map.mp hx with ⟨p, hp, rfl⟩
        have hmem : p.2 ∈ idealLabels L :=
          List.take_subset k _ (snd_mem_of_mem_enumFrom _ 0 hp)
        have h0 : p.2 = 0 :=
          le_antisymm (hex p.2 (hperm.mem_iff.mp hmem)) (hnon p.2 hmem)
        rw [h0, gain_zero, zero_mul]
      rw [hzero] at hpos
      exact lt_irrefl 0 hpos
  · rintro ⟨hk, x, hx, hxpos⟩
    have hxid : x ∈ idealLabels L := hperm.mem_iff.mpr hx
    rcases hcase : idealLabels L with _ | ⟨a, t⟩
    case nil =>
      rw [hcase] at hxid
      simp at hxid
    case cons =>
      have hsorted : (idealLabels L).Sorted qGe := List.sorted_insertionSort qGe _
      rw [hcase] at hsorted hxid
      have hapos : 0 < a := by
        rcases List.mem_cons.mp hxid with h | h
        · rw [← h]
          exact hxpos
        · exact lt_of_lt_of_le hxpos ((List.sorted_cons.mp hsorted).1 x h)
      obtain ⟨m, rfl⟩ : ∃ m, k = m + 1 := ⟨k - 1, by omega⟩
      unfold dcgList
      rw [List.take_succ_cons]
      rw [List.enum_cons]
      rw [List.map_cons, List.sum_cons]
      have htail : 0 ≤ (((t.take m).enumFrom 1).map
          (fun p => gain p.2 * discount (p.1 + 1))).sum := by
        apply dcg_enumFrom_sum_nonneg
        intro l hl
        refine hnon l ?_
        rw [hcase]
        exact List.mem_cons_of_mem a (List.take_subset m t hl)
      have hhead : 0 < gain a * discount (0 + 1) :=
        mul_pos (gain_pos hapos) (discount_pos 0)
      linarith

lemma ndcg_eq_ref_perList (L : List Slot) (k : ℕ) : ndcg_at_k L k = ndcgRef L k := by
  unfold ndcg_at_k ndcgRef
  rw [← dcgList_eq_dcgRef (idealLabels L) k, ← dcgList_eq_dcgRef (rankedLabels L) k]
  by_cases h : ndcgDefined L k = true
  · rw [if_pos h, if_pos ((dcgList_ideal_pos_iff L k).mpr h)]
  · rw [if_neg h, if_neg (fun hp => h ((dcgList_ideal_pos_iff L k).mp hp))]

lemma ndcg_isSome (L : List Slot) (k : ℕ) :
    (ndcg_at_k L k).isSome = ndcgDefined L k := by
  unfold ndcg_at_k
  cases hb : ndcgDefined L k
  · rw [if_neg (by simp [hb])]
    rfl
  · rw [if_pos (by simp [hb])]
    rfl

lemma filterMap_length_eq_countP {α β : Type} (f : α → Option β) :
    ∀ l : List α, (l.filterMap f).length = l.countP (fun a => (f a).isSome)
  | [] => rfl
  | a :: t => by
      rw [List.filterMap_cons, List.countP_cons]
      cases hfa : f a
      · simp [filterMap_length_eq_countP f t, hfa]
      · simp [filterMap_length_eq_countP f t, hfa]

lemma filterMap_sum_eq_map_getD {α : Type} (f : α → Option ℝ) :
    ∀ l : List α, (l.filterMap f).sum = (l.map (fun a => (f a).getD 0)).sum
  | [] => rfl
  | a :: t => by
      rw [List.filterMap_cons, List.map_cons, List.sum_cons]
      cases hfa : f a
      · simp [filterMap_sum_eq_map_getD f t, hfa]
      · simp [filterMap_sum_eq_map_getD f t, hfa]

/-- Claim C1: NDCG@k matches the reference definition — valid slots
ranked by descending score with stable index tie-breaks, DCG@k summed
over ranks `1..min(k, num_valid)` with gain `2^label − 1` and discount
`1/log2(rank+1)`, IDCG@k computed identically over descending-sorted
labels, NDCG defined as DCG/IDCG exactly when IDCG@k > 0, and the batch
value the mean of the defined per-List values. -/
theorem ndcg_matches_reference :
    (∀ (L : List Slot) (k : ℕ), ndcg_at_k L k = ndcgRef L k)
    ∧ (∀ (B : List (List Slot)) (k : ℕ), batchNdcg B k = batchNdcgRef B k)
    ∧ (∀ L : List Slot, List.Perm (rankValid L) (validEnum L) ∧ (rankValid L).Sorted slotRank
        ∧ List.Perm (idealLabels L) (validLabels L) ∧ (idealLabels L).Sorted qGe) := by
  refine ⟨ndcg_eq_ref_perList, ?_, ?_⟩
  · intro B k
    unfold batchNdcg batchNdcgRef
    have hfm : (fun L => ndcgRef L k) = (fun L => ndcg_at_k L k) :=
      funext (fun L => (ndcg_eq_ref_perList L k).symm)
    rw [hfm, filterMap_length_eq_countP, filterMap_sum_eq_map_getD]
    have hc : B.countP (fun L => (ndcg_at_k L k).isSome)
        = B.countP (fun L => ndcgDefined L k) :=
      List.countP_congr (fun L _ => by rw [ndcg_isSome])
    rw [hc]
  · intro L
    exact ⟨List.perm_insertionSort _ _, List.sorted_insertionSort _ _,
      List.perm_insertionSort _ _, List.sorted_insertionSort _ _⟩

/-- Claim C2: for every batch of (scores, labels), the pairwise loss
equals the reference definition: every ordered pair of valid slots with
strictly larger first label accumulates the logistic term penalizing
`score_i ≤ score_j`, equal labels and padded slots contribute nothing,
the per-List loss is divided by the number of valid pairs, and the
batch loss is the mean over Lists. -/
theorem loss_matches_reference :
    (∀ L : List Slot, listLoss L = refListLoss L)
    ∧ (∀ B : List (List Slot), batchLoss B = refBatchLoss B) := by
  have hL : ∀ L : List Slot, listLoss L = refListLoss L := by
    intro L
    unfold listLoss refListLoss
    rw [length_listPairs_eq,
      sum_listPairs_eq L (fun p => pairLogisticLoss p.1.score p.2.score)]
  refine ⟨hL, fun B => ?_⟩
  have hfun : listLoss = refListLoss := funext hL
  unfold batchLoss refBatchLoss
  rw [hfun]

/-- Claim C6: for a fixed List with a discordant pair (valid slots
`i, j`, `label_i > label_j`, `score_i ≤ score_j`), the pair is one of
the accumulated loss pairs, and strictly increasing `score_i` (holding
the other scores fixed) strictly decreases that pair's contribution to
the pairwise loss. -/
theorem discordant_pair_term_strict_decrease
    (L : List Slot) (i j : ℕ) (hi : i < L.length) (hj : j < L.length)
    (hlab : (L.get ⟨j, hj⟩).label < (L.get ⟨i, hi⟩).label)
    (hvalid : 0 ≤ (L.get ⟨j, hj⟩).label)
    (_hdiscord : (L.get ⟨i, hi⟩).score ≤ (L.get ⟨j, hj⟩).score)
    (s' : ℚ) (hinc : (L.get ⟨i, hi⟩).score < s') :
    (L.get ⟨i, hi⟩, L.get ⟨j, hj⟩) ∈ listPairs L
    ∧ pairLogisticLoss s' (L.get ⟨j, hj⟩).score
        < pairLogisticLoss (L.get ⟨i, hi⟩).score (L.get ⟨j, hj⟩).score := by
  constructor
  · unfold listPairs
    rw [List.mem_filter]
    refine ⟨List.mem_product.mpr ⟨List.get_mem L i hi, List.get_mem L j hj⟩, ?_⟩
    exact (validPairB_iff _ _).mpr ⟨le_trans hvalid (le_of_lt hlab), hvalid, hlab⟩
  · exact pairLogisticLoss_strict_anti _ hinc

/-- Witness for C6 at a concrete discordant List. -/
theorem discordant_pair_term_strict_decrease_witness :
    (Slot.mk 0 1, Slot.mk 1 0) ∈ listPairs [Slot.mk 0 1, Slot.mk 1 0]
    ∧ pairLogisticLoss 2 1 < pairLogisticLoss 0 1 :=
  discordant_pair_term_strict_decrease [Slot.mk 0 1, Slot.mk 1 0] 0 1
    (by decide) (by decide) (by decide) (by decide) (by decide) 2 (by decide)

lemma enumFrom_concat {α : Type} (p : α) :
    ∀ (l : List α) (n : ℕ), (l ++ [p]).enumFrom n = l.enumFrom n ++ [(n + l.length, p)]
  | [], n => by simp
  | a :: t, n => by
      rw [List.cons_append, List.enumFrom_cons, enumFrom_concat p t (n + 1),
        List.enumFrom_cons, List.cons_append, List.length_cons]
      have h : n + 1 + t.length = n + (t.length + 1) := by omega
      rw [h]

lemma validEnum_append_invalid (L : List Slot) (p : Slot)
    (hp : isValidLabel p.label = false) : validEnum (L ++ [p]) = validEnum L := by
  unfold validEnum
  rw [List.enum, enumFrom_concat, List.filter_append]
  have h : List.filter (fun q => isValidLabel q.2.label) [(0 + L.length, p)] = [] := by
    simp [hp]
  rw [h, List.append_nil, ← List.enum]

lemma filter_product_concat_snd (q : Slot × Slot → Bool) (p : Slot) (C : List Slot)
    (hq : ∀ a, q (a, p) = false) :
    ∀ A : List Slot, (A ×ˢ (C ++ [p])).filter q = (A ×ˢ C).filter q
  | [] => by simp
  | a :: A => by
      rw [List.product_cons, List.product_cons, List.map_append, List.filter_append,
        List.filter_append, List.filter_append, filter_product_concat_snd q p C hq A]
      have h : List.filter q (List.map (fun b => (a, b)) [p]) = [] := by
        simp [hq a]
      rw [h, List.append_nil]

lemma filter_product_concat_fst (q : Slot × Slot → Bool) (p : Slot) (C : List Slot)
    (hq : ∀ b, q (p, b) = false) :
    ∀ A : List Slot, ((A ++ [p]) ×ˢ C).filter q = (A ×ˢ C).filter q
  | [] => by
      rw [List.nil_append, List.product_cons, List.nil_product, List.append_nil,
        List.filter_nil]
      refine List.filter_eq_nil_iff.mpr ?_
      intro x hx
      rcases List.mem_map.mp hx with ⟨b, _, rfl⟩
      simp [hq b]
  | a :: A => by
      rw [List.cons_append, List.product_cons, List.product_cons, List.filter_append,
        List.filter_append, filter_product_concat_fst q p C hq A]

lemma listPairs_append_invalid (L : List Slot) (p : Slot)
    (hp : isValidLabel p.label = false) : listPairs (L ++ [p]) = listPairs L := by
  have hsnd : ∀ a, validPairB a p = false := by
    intro a
    simp [validPairB, hp]
  have hfst : ∀ b, validPairB p b = false := by
    intro b
    simp [validPairB, hp]
  unfold listPairs
  rw [filter_product_concat_snd _ p L (fun a => hsnd a) (L ++ [p]),
    filter_product_concat_fst _ p L (fun b => hfst b) L]

lemma listLoss_append_invalid (L : List Slot) (p : Slot)
    (hp : isValidLabel p.label = false) : listLoss (L ++ [p]) = listLoss L := by
  unfold listLoss
  rw [listPairs_append_invalid L p hp]

lemma validLabels_append_invalid (L : List Slot) (p : Slot)
    (hp : isValidLabel p.label = false) : validLabels (L ++ [p]) = validLabels L := by
  unfold validLabels
  rw [validEnum_append_invalid L p hp]

lemma ndcg_append_invalid (L : List Slot) (p : Slot)
    (hp : isValidLabel p.label = false) (k : ℕ) :
    ndcg_at_k (L ++ [p]) k = ndcg_at_k L k := by
  unfold ndcg_at_k ndcgDefined rankedLabels rankValid idealLabels
  rw [validEnum_append_invalid L p hp, validLabels_append_invalid L p hp]

/-- Claim C5: appending (equivalently, removing) a padded-only slot —
label equal to the padding sentinel −1, carrying any score (features
never reach loss or metrics) — changes neither the pairwise loss nor
the NDCG@k value of a List. -/
theorem padding_invariance (L : List Slot) (k : ℕ) (s : ℚ) :
    listLoss (L ++ [⟨s, -1⟩]) = listLoss L
    ∧ ndcg_at_k (L ++ [⟨s, -1⟩]) k = ndcg_at_k L k :=
  ⟨listLoss_append_invalid L (Slot.mk s (-1)) (show isValidLabel (-1) = false by decide),
    ndcg_append_invalid L (Slot.mk s (-1)) (show isValidLabel (-1) = false by decide) k⟩

lemma validEnum_all_invalid (P : List Slot) (hP : ∀ s ∈ P, s.label < 0) :
    validEnum P = [] := by
  unfold validEnum
  refine List.filter_eq_nil_iff.mpr ?_
  intro pr hpr
  have hmem : pr.2 ∈ P := by
    rw [List.enum] at hpr
    exact snd_mem_of_mem_enumFrom P 0 hpr
  simp [isValidLabel]
  exact hP pr.2 hmem

/-- Claim C7: a List consisting only of padded slots (zero valid
documents) is handled totally: it contributes zero to the loss, its
NDCG@k is undefined (`none`), and it is excluded from the batch NDCG
average. Loss and metric computation are total functions of this
embedding, so no error can be raised. -/
theorem padded_only_list_safe (P : List Slot) (hP : ∀ s ∈ P, s.label < 0) (k : ℕ)
    (B : List (List Slot)) :
    listLoss P = 0 ∧ ndcg_at_k P k = none ∧ batchNdcg (P :: B) k = batchNdcg B k := by
  have hpairs : listPairs P = [] := by
    unfold listPairs
    refine List.filter_eq_nil_iff.mpr ?_
    intro pr hpr
    have hfst : pr.1 ∈ P := by
      have := List.mem_product.mp (show (pr.1, pr.2) ∈ P ×ˢ P from hpr)
      exact this.1
    simp [validPairB, isValidLabel]
    intro h0
    exact absurd h0 (not_le.mpr (hP pr.1 hfst))
  have hvl : validLabels P = [] := by
    unfold validLabels
    rw [validEnum_all_invalid P hP]
    rfl
  have hdef : ndcgDefined P k = false := by
    unfold ndcgDefined
    rw [hvl]
    simp
  have hnone : ndcg_at_k P k = none := by
    unfold ndcg_at_k
    rw [if_neg (by simp [hdef])]
  refine ⟨?_, hnone, ?_⟩
  · unfold listLoss
    rw [hpairs]
    rfl
  · unfold batchNdcg
    rw [List.countP_cons, List.map_cons, List.sum_cons, hnone]
    simp [hdef]

/-- Witness for C7 at a concrete padded-only List. -/
theorem padded_only_list_safe_witness :
    listLoss [Slot.mk 5 (-1)] = 0 ∧ ndcg_at_k [Slot.mk 5 (-1)] 3 = none
    ∧ batchNdcg ([Slot.mk 5 (-1)] :: []) 3 = batchNdcg [] 3 :=
  padded_only_list_safe [Slot.mk 5 (-1)] (by decide) 3 []

/-- Claim C10: a slot is treated as valid by loss and metric
computation exactly when its label is `≥ 0`: any negative label (not
only the −1 sentinel) is excluded like padding, while a label of
exactly 0 is a valid zero-relevance document — it enters the metric's
valid set and forms loss pairs with positively labeled slots. -/
theorem valid_slot_iff_nonneg_label :
    (∀ l : ℚ, isValidLabel l = true ↔ 0 ≤ l)
    ∧ (∀ (L : List Slot) (k : ℕ) (s l : ℚ), l < 0 →
        listLoss (L ++ [⟨s, l⟩]) = listLoss L
        ∧ ndcg_at_k (L ++ [⟨s, l⟩]) k = ndcg_at_k L k)
    ∧ (∀ s : ℚ, validEnum [⟨s, 0⟩] = [(0, ⟨s, 0⟩)]
        ∧ ∀ a b : ℚ, 0 < b → validPairB ⟨a, b⟩ ⟨s, 0⟩ = true) := by
  refine ⟨?_, ?_, ?_⟩
  · intro l
    simp [isValidLabel]
  · intro L k s l h
    have hp : isValidLabel (Slot.mk s l).label = false := by
      rw [show (Slot.mk s l).label = l from rfl, isValidLabel, decide_eq_false_iff_not]
      exact not_le.mpr h
    exact ⟨listLoss_append_invalid L _ hp, ndcg_append_invalid L _ hp k⟩
  · intro s
    constructor
    · rfl
    · intro a b hb
      simp [validPairB, isValidLabel, le_of_lt hb, hb]

/-- Witness for C10: a negative-label slot is ignored by the loss and a
zero-label slot pairs against a positively labeled one. -/
theorem valid_slot_iff_nonneg_label_witness :
    listLoss ([Slot.mk 1 1] ++ [Slot.mk 3 (-2)]) = listLoss [Slot.mk 1 1]
    ∧ validPairB (Slot.mk 2 1) (Slot.mk 7 0) = true :=
  ⟨(valid_slot_iff_nonneg_label.2.1 [Slot.mk 1 1] 0 3 (-2) (by decide)).1,
    (valid_slot_iff_nonneg_label.2.2 7).2 2 1 (by decide)⟩

/-- Modelled from the spec (§3): one parsed input line — a relevance
label and a sparse feature mapping (index ↦ value). -/
structure Record where
  label : ℚ
  features : List (ℕ × ℚ)

/-- Modelled from the spec (§4.1, §9): densification of a sparse
feature mapping into an explicitly indexed vector over `1..numFeatures`
with default `0.0` for absent indices (out-of-range indices of the
sparse mapping are ignored, the documented default policy). -/
def denseFeatures (numFeatures : ℕ) (r : Record) : List ℚ :=
  (List.range numFeatures).map (fun i => ((r.features.lookup (i + 1)).getD 0))

/-- One slot of an assembled List: a dense feature vector and a label. -/
structure ListSlot where
  features : List ℚ
  label : ℚ

/-- Modelled from the spec (§3, §4.1): the padding slot — label −1 and
all-zero features. -/
def padSlot (numFeatures : ℕ) : ListSlot :=
  ⟨List.replicate numFeatures 0, -1⟩

/-- Slot built from a real record. -/
def mkSlot (numFeatures : ℕ) (r : Record) : ListSlot :=
  ⟨denseFeatures numFeatures r, r.label⟩

/-- Modelled from the spec (§4.1): `assemble` for the records of one
query. The seeded random source used only for the truncation shuffle is
abstracted as the `shuffle` parameter (a permutation of its input; its
distributional uniformity is outside this embedding). -/
def assemble (records : List Record) (listSize numFeatures : ℕ)
    (shuffle : List Record → List Record) : List ListSlot :=
  if records.length ≤ listSize then
    records.map (mkSlot numFeatures)
      ++ List.replicate (listSize - records.length) (padSlot numFeatures)
  else ((shuffle records).take listSize).map (mkSlot numFeatures)

/-- Claim C3: for records of one query and `list_size > 0`, `assemble`
returns exactly `list_size` slots; with at most `list_size` records the
original relative order is kept and the rest is padding with label −1
and all-zero features; with more records, a permutation of the records
is truncated to the first `list_size`. -/
theorem assemble_spec (records : List Record) (listSize numFeatures : ℕ)
    (shuffle : List Record → List Record) (_hsize : 0 < listSize)
    (hperm : List.Perm (shuffle records) records) :
    (assemble records listSize numFeatures shuffle).length = listSize
    ∧ (records.length ≤ listSize →
        assemble records listSize numFeatures shuffle
          = records.map (mkSlot numFeatures)
            ++ List.replicate (listSize - records.length) (padSlot numFeatures))
    ∧ (listSize < records.length →
        assemble records listSize numFeatures shuffle
          = ((shuffle records).take listSize).map (mkSlot numFeatures))
    ∧ (padSlot numFeatures).label = -1
    ∧ (padSlot numFeatures).features = List.replicate numFeatures 0 := by
  refine ⟨?_, ?_, ?_, rfl, rfl⟩
  · unfold assemble
    by_cases h : records.length ≤ listSize
    · rw [if_pos h, List.length_append, List.length_map, List.length_replicate]
      omega
    · rw [if_neg h, List.length_map, List.length_take, hperm.length_eq]
      omega
  · intro h
    unfold assemble
    rw [if_pos h]
  · intro h
    unfold assemble
    rw [if_neg (by omega)]

/-- Witness for C3: one record assembled into a List of size two. -/
theorem assemble_spec_witness :
    (assemble [Record.mk 1 [(1, 2)]] 2 1 id).length = 2
    ∧ assemble [Record.mk 1 [(1, 2)]] 2 1 id
        = [Record.mk 1 [(1, 2)]].map (mkSlot 1) ++ List.replicate 1 (padSlot 1) := by
  have h := assemble_spec [Record.mk 1 [(1, 2)]] 2 1 id (by decide) (List.Perm.refl _)
  exact ⟨h.1, h.2.1 (by decide)⟩

/-- Claim C8: every assembled slot's feature vector has an entry for
every feature index in `1..num_features`, the entry for index `i+1`
of a real record's slot being the sparse value when present and `0.0`
otherwise (padding slots are all zeros). -/
theorem assembled_slot_features (records : List Record) (listSize numFeatures : ℕ)
    (shuffle : List Record → List Record) :
    (∀ v ∈ assemble records listSize numFeatures shuffle, v.features.length = numFeatures)
    ∧ (∀ (r : Record) (i : ℕ), i < numFeatures →
        (denseFeatures numFeatures r).get? i = some ((r.features.lookup (i + 1)).getD 0)) := by
  constructor
  · intro v hv
    unfold assemble at hv
    have hlen : ∀ r : Record, (mkSlot numFeatures r).features.length = numFeatures := by
      intro r
      unfold mkSlot denseFeatures
      rw [List.length_map, List.length_range]
    by_cases h : records.length ≤ listSize
    · rw [if_pos h] at hv
      rcases List.mem_append.mp hv with hv | hv
      · rcases List.mem_map.mp hv with ⟨r, _, rfl⟩
        exact hlen r
      · rw [List.eq_of_mem_replicate hv]
        unfold padSlot
        exact List.length_replicate _ _
    · rw [if_neg h] at hv
      rcases List.mem_map.mp hv with ⟨r, _, rfl⟩
      exact hlen r
  · intro r i hi
    unfold denseFeatures
    rw [List.get?_map, List.get?_range hi]
    rfl

/-- Witness for C8: a two-feature record with only feature 2 present. -/
theorem assembled_slot_features_witness :
    (denseFeatures 2 (Record.mk 1 [(2, 5)])).get? 1
      = some (((Record.mk 1 [(2, 5)]).features.lookup 2).getD 0) :=
  (assembled_slot_features [] 0 2 id).2 (Record.mk 1 [(2, 5)]) 1 (by decide)

/-- Modelled from the spec (§4.2): split a List into consecutive
groups of `g` documents (the degenerate `g = 0` behaves as `g = 1`;
the pipeline only uses `g ≥ 1`). -/
def chunkEvery {α : Type} (g : ℕ) : List α → List (List α)
  | [] => []
  | a :: rest => (a :: rest.take (g - 1)) :: chunkEvery g (rest.drop (g - 1))
termination_by l => l.length
decreasing_by
  simp only [List.length_drop, List.length_cons]
  omega

lemma flatten_chunkEvery {α : Type} (g : ℕ) :
    ∀ L : List α, (chunkEvery g L).flatten = L
  | [] => by rw [chunkEvery]; rfl
  | a :: rest => by
      rw [chunkEvery, List.flatten_cons, flatten_chunkEvery g (rest.drop (g - 1)),
        List.cons_append, List.take_append_drop]
termination_by L => L.length
decreasing_by
  simp only [List.length_drop, List.length_cons]
  omega

/-- Modelled from the spec (§4.2): a scorer without cross-document
interaction is induced by a per-document kernel `f`; a group is scored
by applying `f` to each of its documents, one score per document. -/
def scoreGroup {α β : Type} (f : α → β) (group : List α) : List β := group.map f

/-- Modelled from the spec (§4.2): groupwise evaluation — split the
List into groups of `g`, score each group, concatenate the per-group
outputs in slot order. -/
def groupwiseScore {α β : Type} (f : α → β) (g : ℕ) (L : List α) : List β :=
  ((chunkEvery g L).map (scoreGroup f)).flatten

lemma groupwiseScore_eq_map {α β : Type} (f : α → β) (g : ℕ) (L : List α) :
    groupwiseScore f g L = L.map f := by
  unfold groupwiseScore scoreGroup
  rw [← List.map_flatten, flatten_chunkEvery]

/-- Claim C4: for a scorer that does not exploit cross-document
interaction, calling it with `group_size = 1` on each document
individually and concatenating the per-document results in slot order
equals calling it once with `group_size = ListSize` on the whole List
(both reduce to pointwise scoring). -/
theorem groupwise_scorer_degenerate {α β : Type} (f : α → β) (L : List α) :
    groupwiseScore f 1 L = groupwiseScore f L.length L
    ∧ groupwiseScore f 1 L = L.map f := by
  rw [groupwiseScore_eq_map, groupwiseScore_eq_map]
  exact ⟨rfl, rfl⟩

/-- From the notebook: `_NUM_FEATURES = 136`. -/
def _NUM_FEATURES : ℕ := 136

/-- From the notebook's `example_feature_columns`: the feature column
names `"1"`, ..., `"136"`, generated in ascending numeric order (the
dict's values — numeric column specs — play no role in the ordering
claim, so the dict is modelled by its key list). -/
def example_feature_columns : List String :=
  (List.range _NUM_FEATURES).map (fun i => toString (i + 1))

/-- From the notebook's `_score_fn`: the per-document input layer
concatenates the group's feature tensors iterating
`sorted(example_feature_columns())`, i.e. the names in lexicographic
string order (Python's and Lean's string orders agree on ASCII
digits). A pure definition, hence the same ordering on every call. -/
def scoreInputOrder : List String :=
  List.insertionSort (fun a b : String => a ≤ b) example_feature_columns

/-- Claim C9: the scorer's input layer is built in lexicographic string
order of the feature names — the order is sorted lexicographically, is
a permutation of the 136 names, and differs from ascending numeric
index order (`"10"` sorts before `"2"`). -/
theorem score_input_order_lex :
    scoreInputOrder.Sorted (fun a b : String => a ≤ b)
    ∧ List.Perm scoreInputOrder example_feature_columns
    ∧ scoreInputOrder ≠ example_feature_columns := by
  refine ⟨List.sorted_insertionSort _ _, List.perm_insertionSort _ _, ?_⟩
  intro heq
  have hsorted : example_feature_columns.Sorted (fun a b : String => a ≤ b) := by
    rw [← heq]
    exact List.sorted_insertionSort _ _
  have hlen : example_feature_columns.length = 136 := by
    simp [example_feature_columns, _NUM_FEATURES]
  have hb1 : 1 < example_feature_columns.length := by
    rw [hlen]
    norm_num
  have hb9 : 9 < example_feature_columns.length := by
    rw [hlen]
    norm_num
  have hfin : (⟨1, hb1⟩ : Fin example_feature_columns.length) < ⟨9, hb9⟩ :=
    Fin.mk_lt_mk.mpr (by norm_num)
  have hrel := hsorted.rel_get_of_lt hfin
  have h1 : example_feature_columns.get ⟨1, hb1⟩ = "2" := rfl
  have h9 : example_feature_columns.get ⟨9, hb9⟩ = "10" := rfl
  rw [h1, h9] at hrel
  rw [String.le_iff_toList_le] at hrel
  exact (by decide : ¬ (("2" : String).toList ≤ ("10" : String).toList)) hrel

end TFR
